import Mathlib

/-!
Shallow embedding of `experiments/retrieve.py`: a nearest-neighbor retrieval
script.  The scorer computes, for each prior example, the negated minimum
Euclidean distance to any target embedding (via a pairwise distance matrix and
a column-wise minimum).  The selector sorts the distances, keeps the indices of
the `int(threshold * N)` smallest, and builds a boolean mask.  The exporter
walks the prior batches a second time and writes, for each masked example, the
horizontal concatenation of its observation image and next-observation image
to `vis/<counter>.png`, with a counter starting at 0.
-/

namespace Retrieve

/-! ### Scorer (`scipy.spatial.distance.cdist`, `jnp.min(·, axis=0)`, negation) -/

/-- Euclidean distance between two vectors, as computed by
`scipy.spatial.distance.cdist` with the default `euclidean` metric. -/
noncomputable def euclid (x y : List ℝ) : ℝ :=
  Real.sqrt (((x.zip y).map (fun p => (p.1 - p.2) ^ 2)).sum)

/-- `scipy.spatial.distance.cdist(T, P)`: the pairwise distance matrix, row `i`
holding the distances from target `i` to every prior example of the batch. -/
noncomputable def cdist (T P : List (List ℝ)) : List (List ℝ) :=
  T.map (fun t => P.map (fun p => euclid t p))

/-- Minimum of a list of reals (`jnp.min` over a nonempty axis); `0` on the
empty list, a case the script never produces. -/
noncomputable def minList : List ℝ → ℝ
  | [] => 0
  | x :: xs => xs.foldl min x

/-- `jnp.min(M, axis=0)`: column-wise minimum of a rectangular matrix, the
distance from each prior example of the batch to its nearest target. -/
noncomputable def colMin (M : List (List ℝ)) : List ℝ :=
  match M with
  | [] => []
  | r :: _ => (List.range r.length).map (fun j => minList (M.map (fun row => row.getD j 0)))

/-- One iteration of the scoring loop:
`-jnp.min(scipy.spatial.distance.cdist(target_embeddings, prior_embeddings), axis=0)`. -/
noncomputable def batchSimScores (T P : List (List ℝ)) : List ℝ :=
  (colMin (cdist T P)).map (fun d => -d)

/-- The scoring pass: per-batch score vectors appended in batch order and
concatenated (`sim_scores.append(...)` then `jnp.concatenate`). -/
noncomputable def simScores (T : List (List ℝ)) (Bs : List (List (List ℝ))) : List ℝ :=
  (Bs.map (fun P => batchSimScores T P)).flatten

/-! ### Selector (`np.argsort`, slice by `int(threshold * N)`, boolean mask) -/

/-- Python `int()` applied to a (rational-modelled) float: truncation toward
zero. -/
def pyInt (q : ℚ) : ℤ :=
  if q < 0 then -(((-q).num.toNat / (-q).den : ℕ) : ℤ)
  else ((q.num.toNat / q.den : ℕ) : ℤ)

/-- Python slicing `l[:n]` with a possibly negative bound `n`. -/
def pySliceTake {β : Type} (l : List β) (n : ℤ) : List β :=
  if 0 ≤ n then l.take n.toNat else l.take (l.length - (-n).toNat)

/-- Comparison of index/value pairs by value, the order `np.argsort` sorts by. -/
def sndLE {α : Type} [LinearOrder α] (a b : ℕ × α) : Prop :=
  a.2 ≤ b.2

instance {α : Type} [LinearOrder α] : DecidableRel (@sndLE α _) :=
  fun a b => inferInstanceAs (Decidable (a.2 ≤ b.2))

instance {α : Type} [LinearOrder α] : IsTotal (ℕ × α) sndLE :=
  ⟨fun a b => le_total a.2 b.2⟩

instance {α : Type} [LinearOrder α] : IsTrans (ℕ × α) sndLE :=
  ⟨fun _ _ _ hab hbc => le_trans hab hbc⟩

/-- The index/value pairs of `l` sorted by value, the intermediate state of
`np.argsort`. -/
def sortedPairs {α : Type} [LinearOrder α] (l : List α) : List (ℕ × α) :=
  ((List.range l.length).zip l).insertionSort sndLE

/-- `np.argsort(l)`: indices that sort `l` ascending (tie order is
implementation defined; we fix a stable sort, one admissible choice). -/
def argsort {α : Type} [LinearOrder α] (l : List α) : List ℕ :=
  (sortedPairs l).map Prod.fst

/-- The selection step of `main`:
`retrieval_distances = -sim_scores`, `sorted_distances = np.argsort(...)`,
`threshold_idx = sorted_distances[:int(threshold * len(sorted_distances))]`,
`mask = zeros(bool)`, `mask[threshold_idx] = True`. -/
def selectMask {α : Type} [LinearOrderedAddCommGroup α] (scores : List α) (threshold : ℚ) :
    List Bool :=
  let retrievalDistances := scores.map (fun s => -s)
  let sortedDistances := argsort retrievalDistances
  let thresholdIdx :=
    pySliceTake sortedDistances (pyInt (threshold * (sortedDistances.length : ℚ)))
  (List.range retrievalDistances.length).map (fun i => decide (i ∈ thresholdIdx))

/-- The `k`-th smallest element of a list (1-indexed), default `d` out of
range. -/
def kthSmallest {α : Type} [LinearOrder α] (l : List α) (k : ℕ) (d : α) : α :=
  (l.insertionSort (fun a b => a ≤ b)).getD (k - 1) d

/-! ### Exporter (second pass: mask slices, `np.where`, `imageio.imwrite`) -/

/-- A prior example as the export pass sees it: an observation image and a
next-observation image, each a list of pixel rows. -/
structure RecExample (π : Type) where
  obsImage : List (List π)
  nextObsImage : List (List π)

/-- `np.concatenate((a, b), axis=1)`: horizontal concatenation of two images
of equal height. -/
def hconcat {π : Type} (a b : List (List π)) : List (List π) :=
  List.zipWith (fun r s => r ++ s) a b

/-- `np.where(current_mask)[0]`: the ascending indices where the mask is
true. -/
def trueIndices (m : List Bool) : List ℕ :=
  (List.range m.length).filter (fun i => m.getD i false)

/-- The fixed output path `f"vis/{cnt}.png"` of `imageio.imwrite`. -/
def pathOf (cnt : ℕ) : String :=
  "vis/" ++ toString cnt ++ ".png"

/-- Indexing a batch (`prior_batch[...][idx]`); the default is never reached
for in-range indices. -/
def exampleAt {π : Type} (batch : List (RecExample π)) (idx : ℕ) : RecExample π :=
  batch.getD idx ⟨[], []⟩

/-- The inner write loop: `for idx in np.where(current_mask)[0]:` writes the
concatenated image pair to `vis/<cnt>.png` and increments `cnt`. -/
def writeSelected {π : Type} (batch : List (RecExample π)) :
    ℕ → List ℕ → List (String × List (List π))
  | _, [] => []
  | cnt, idx :: rest =>
    (pathOf cnt, hconcat (exampleAt batch idx).obsImage (exampleAt batch idx).nextObsImage) ::
      writeSelected batch (cnt + 1) rest

/-- The export pass of `main`: walk the batches, slice
`mask[current_idx : current_idx + len(batch)]`, and when the slice has a true
entry write every selected example.  Returns the writes (path, image) in order
together with the final counter. -/
def exportLoop {π : Type} (mask : List Bool) :
    ℕ → ℕ → List (List (RecExample π)) → List (String × List (List π)) × ℕ
  | cnt, _, [] => ([], cnt)
  | cnt, currentIdx, batch :: rest =>
    let currentMask := (mask.drop currentIdx).take batch.length
    let ws :=
      if currentMask.count true = 0 then []
      else writeSelected batch cnt (trueIndices currentMask)
    let res := exportLoop mask (cnt + ws.length) (currentIdx + batch.length) rest
    (ws ++ res.1, res.2)

/-- The export pass as a function of the command-line flags: the
`--output_dir` and `--prefix` flags are in scope but never used by the write
path. -/
def exportAll {π : Type} (_outputDir _prefixFlag : String) (mask : List Bool)
    (batches : List (List (RecExample π))) : List (String × List (List π)) × ℕ :=
  exportLoop mask 0 0 batches

/-! ### Selector lemmas -/

theorem pyInt_eq_floor (q : ℚ) (h : 0 ≤ q) : pyInt q = ⌊q⌋ := by
  unfold pyInt
  rw [if_neg (not_lt.mpr h), Rat.floor_def]
  conv_rhs => rw [← Int.toNat_of_nonneg (Rat.num_nonneg.mpr h)]
  rfl

theorem pySliceTake_of_nonneg {β : Type} (l : List β) (n : ℤ) (h : 0 ≤ n) :
    pySliceTake l n = l.take n.toNat := by
  unfold pySliceTake
  rw [if_pos h]

theorem sortedPairs_perm {α : Type} [LinearOrder α] (l : List α) :
    List.Perm (sortedPairs l) ((List.range l.length).zip l) :=
  List.perm_insertionSort sndLE _

theorem sortedPairs_length {α : Type} [LinearOrder α] (l : List α) :
    (sortedPairs l).length = l.length := by
  rw [(sortedPairs_perm l).length_eq, List.length_zip, List.length_range, min_self]

theorem argsort_perm_range {α : Type} [LinearOrder α] (l : List α) :
    List.Perm (argsort l) (List.range l.length) := by
  have h := (sortedPairs_perm l).map Prod.fst
  rwa [List.map_fst_zip _ _ (by simp)] at h

theorem argsort_length {α : Type} [LinearOrder α] (l : List α) :
    (argsort l).length = l.length := by
  rw [(argsort_perm_range l).length_eq, List.length_range]

theorem argsort_nodup {α : Type} [LinearOrder α] (l : List α) : (argsort l).Nodup :=
  (argsort_perm_range l).nodup_iff.mpr (List.nodup_range _)

theorem mem_argsort {α : Type} [LinearOrder α] (l : List α) {i : ℕ} :
    i ∈ argsort l ↔ i < l.length := by
  rw [(argsort_perm_range l).mem_iff, List.mem_range]

theorem sortedPairs_snd_sorted {α : Type} [LinearOrder α] (l : List α) :
    ((sortedPairs l).map Prod.snd).Sorted (fun a b : α => a ≤ b) :=
  List.Pairwise.map Prod.snd (fun _ _ h => h)
    (List.sorted_insertionSort sndLE ((List.range l.length).zip l))

theorem sortedPairs_snd_eq {α : Type} [LinearOrder α] (l : List α) :
    (sortedPairs l).map Prod.snd = l.insertionSort (fun a b => a ≤ b) := by
  refine List.eq_of_perm_of_sorted ?_ (sortedPairs_snd_sorted l) (List.sorted_insertionSort _ l)
  refine List.Perm.trans ?_ (List.perm_insertionSort _ _).symm
  have h1 := (sortedPairs_perm l).map Prod.snd
  rwa [List.map_snd_zip _ _ (by simp)] at h1

theorem sortedPairs_getElem_val {α : Type} [LinearOrder α] (l : List α) (j : ℕ)
    (hj : j < (sortedPairs l).length) :
    ∃ h : (sortedPairs l)[j].1 < l.length,
      l[(sortedPairs l)[j].1] = (sortedPairs l)[j].2 := by
  have hm : (sortedPairs l)[j] ∈ sortedPairs l := List.getElem_mem hj
  have hz : (sortedPairs l)[j] ∈ (List.range l.length).zip l :=
    (sortedPairs_perm l).mem_iff.mp hm
  obtain ⟨i, hi, hp⟩ := List.mem_iff_getElem.mp hz
  have hilt : i < l.length := by
    have := List.length_zip (List.range l.length) l
    simp only [List.length_range, min_self] at this
    omega
  rw [List.getElem_zip] at hp
  rw [← hp]
  simp only [List.getElem_range]
  exact ⟨hilt, trivial⟩

/-- The floor of `t · N` is at most `N` whenever `t ≤ 1`. -/
theorem floor_frac_le (t : ℚ) (N : ℕ) (h1 : t ≤ 1) : (⌊t * (N : ℚ)⌋).toNat ≤ N := by
  have hle : t * (N : ℚ) ≤ (N : ℚ) := by
    calc t * (N : ℚ) ≤ 1 * (N : ℚ) := mul_le_mul_of_nonneg_right h1 (Nat.cast_nonneg _)
      _ = (N : ℚ) := one_mul _
  have h2 := Int.floor_le_floor hle
  rw [Int.floor_natCast] at h2
  omega

/-- For a nonnegative threshold the selector is a `take` of the argsorted
indices by the floor of `threshold · N`. -/
theorem selectMask_eq_take {α : Type} [LinearOrderedAddCommGroup α] (scores : List α) (t : ℚ)
    (h0 : 0 ≤ t) :
    selectMask scores t =
      (List.range scores.length).map
        (fun i =>
          decide (i ∈ (argsort (scores.map (fun s => -s))).take
            (⌊t * (scores.length : ℚ)⌋).toNat)) := by
  have h0' : 0 ≤ t * (scores.length : ℚ) := mul_nonneg h0 (Nat.cast_nonneg _)
  have hlen : ((argsort (scores.map (fun s => -s))).length : ℚ) = (scores.length : ℚ) := by
    rw [argsort_length, List.length_map]
  simp only [selectMask, List.length_map, hlen, pyInt_eq_floor _ h0',
    pySliceTake_of_nonneg _ _ (Int.floor_nonneg.mpr h0')]

theorem count_true_mask {tIdx : List ℕ} (N : ℕ) (hsub : ∀ i ∈ tIdx, i < N)
    (hnd : tIdx.Nodup) :
    ((List.range N).map (fun i => decide (i ∈ tIdx))).count true = tIdx.length := by
  have hperm : List.Perm ((List.range N).filter (fun i => decide (i ∈ tIdx))) tIdx := by
    rw [List.perm_ext_iff_of_nodup ((List.nodup_range N).filter _) hnd]
    intro a
    simp only [List.mem_filter, List.mem_range, decide_eq_true_iff]
    exact ⟨fun h => h.2, fun h => ⟨hsub a h, h⟩⟩
  have h1 : ((List.range N).map (fun i => decide (i ∈ tIdx))).countP (fun b => b == true)
      = (List.range N).countP ((fun b => b == true) ∘ (fun i => decide (i ∈ tIdx))) :=
    List.countP_map _ _ _
  rw [List.count_eq_countP, h1]
  have h2 : ((fun b => b == true) ∘ (fun i => decide (i ∈ tIdx)))
      = (fun i => decide (i ∈ tIdx)) := by
    funext i
    simp [Function.comp]
  rw [h2, List.countP_eq_length_filter, hperm.length_eq]

theorem decide_mem_argsort_replicate {α : Type} [LinearOrder α] (l : List α) (N : ℕ)
    (hlen : l.length = N) :
    (List.range N).map (fun i => decide (i ∈ argsort l)) = List.replicate N true := by
  have h : ∀ i ∈ List.range N, decide (i ∈ argsort l) = (fun _ : ℕ => true) i := by
    intro i hi
    simp only [decide_eq_true_iff]
    rw [mem_argsort, hlen]
    exact List.mem_range.mp hi
  rw [List.map_congr_left h]
  have hc := List.map_const (List.range N) true
  rw [List.length_range] at hc
  exact hc

/-- **C2.** For every similarity-score sequence of length `N` and every
threshold `t ∈ [0, 1]`, the selection mask has exactly `⌊t·N⌋` true entries;
`t = 0` yields the all-false mask and `t = 1` the all-true mask. -/
theorem claim2_mask_true_count {α : Type} [LinearOrderedAddCommGroup α] (scores : List α)
    (t : ℚ) (h0 : 0 ≤ t) (h1 : t ≤ 1) :
    (selectMask scores t).count true = (⌊t * (scores.length : ℚ)⌋).toNat ∧
    (t = 0 → selectMask scores t = List.replicate scores.length false) ∧
    (t = 1 → selectMask scores t = List.replicate scores.length true) := by
  refine ⟨?_, ?_, ?_⟩
  · rw [selectMask_eq_take scores t h0]
    have hsub : ∀ i ∈ (argsort (scores.map (fun s => -s))).take
        (⌊t * (scores.length : ℚ)⌋).toNat, i < scores.length := by
      intro i hi
      have hmem := List.take_subset _ _ hi
      rw [mem_argsort, List.length_map] at hmem
      exact hmem
    have hnd : ((argsort (scores.map (fun s => -s))).take
        (⌊t * (scores.length : ℚ)⌋).toNat).Nodup :=
      List.Nodup.sublist (List.take_sublist _ _) (argsort_nodup _)
    rw [count_true_mask scores.length hsub hnd, List.length_take, argsort_length,
      List.length_map]
    have := floor_frac_le t scores.length h1
    omega
  · intro ht
    subst ht
    rw [selectMask_eq_take scores 0 le_rfl]
    simp only [zero_mul, Int.floor_zero, Int.toNat_zero, List.take_zero]
    have h : ∀ i ∈ List.range scores.length,
        decide (i ∈ ([] : List ℕ)) = (fun _ : ℕ => false) i := by
      intro i _
      simp
    rw [List.map_congr_left h]
    have hc := List.map_const (List.range scores.length) false
    rw [List.length_range] at hc
    exact hc
  · intro ht
    subst ht
    rw [selectMask_eq_take scores 1 zero_le_one]
    have hfl : (⌊(1 : ℚ) * (scores.length : ℚ)⌋).toNat = scores.length := by
      rw [one_mul, Int.floor_natCast]
      omega
    rw [hfl, List.take_of_length_le (by rw [argsort_length, List.length_map])]
    exact decide_mem_argsort_replicate _ _ (List.length_map _ _)

/-- Witness for C2 at a concrete input. -/
theorem claim2_mask_true_count_witness :
    (0 ≤ (1/2 : ℚ)) ∧ ((1/2 : ℚ) ≤ 1) ∧
      ((selectMask [(5:ℤ), -3, 2] (1/2)).count true
          = (⌊(1/2 : ℚ) * (([(5:ℤ), -3, 2] : List ℤ).length : ℚ)⌋).toNat ∧
        ((1/2 : ℚ) = 0 →
          selectMask [(5:ℤ), -3, 2] (1/2) =
            List.replicate ([(5:ℤ), -3, 2] : List ℤ).length false) ∧
        ((1/2 : ℚ) = 1 →
          selectMask [(5:ℤ), -3, 2] (1/2) =
            List.replicate ([(5:ℤ), -3, 2] : List ℤ).length true)) :=
  ⟨by norm_num, by norm_num,
    claim2_mask_true_count [(5:ℤ), -3, 2] (1/2) (by norm_num) (by norm_num)⟩

/-- **C10.** The selection step is total for every threshold; for `t ≥ 1` the
slice bound is at least `N`, so the mask is all-true (no out-of-bounds
failure: slicing is total by construction, `pySliceTake`). -/
theorem claim10_large_threshold {α : Type} [LinearOrderedAddCommGroup α] (scores : List α)
    (t : ℚ) (h : 1 ≤ t) :
    (∀ q : ℚ, (selectMask scores q).length = scores.length) ∧
      selectMask scores t = List.replicate scores.length true := by
  refine ⟨fun q => by simp [selectMask], ?_⟩
  have h0 : 0 ≤ t := le_trans zero_le_one h
  rw [selectMask_eq_take scores t h0]
  have hN : scores.length ≤ (⌊t * (scores.length : ℚ)⌋).toNat := by
    have hle : (scores.length : ℚ) ≤ t * (scores.length : ℚ) :=
      le_mul_of_one_le_left (Nat.cast_nonneg _) h
    have h2 := Int.floor_le_floor hle
    rw [Int.floor_natCast] at h2
    omega
  rw [List.take_of_length_le (by rw [argsort_length, List.length_map]; exact hN)]
  exact decide_mem_argsort_replicate _ _ (List.length_map _ _)

theorem sortedPairs_getD_val {α : Type} [LinearOrder α] (l : List α) (d : α) (j : ℕ)
    (hj : j < (sortedPairs l).length) :
    (sortedPairs l)[j].1 < l.length ∧ l.getD (sortedPairs l)[j].1 d = (sortedPairs l)[j].2 := by
  obtain ⟨h, hv⟩ := sortedPairs_getElem_val l j hj
  exact ⟨h, by rw [List.getD_eq_getElem _ _ h, hv]⟩

theorem sortedPairs_val_le {α : Type} [LinearOrder α] (l : List α) (a b : ℕ)
    (ha : a < (sortedPairs l).length) (hb : b < (sortedPairs l).length) (hab : a ≤ b) :
    (sortedPairs l)[a].2 ≤ (sortedPairs l)[b].2 := by
  have hs := sortedPairs_snd_sorted l
  have h := List.Sorted.rel_get_of_le hs
    (a := ⟨a, by rw [List.length_map]; exact ha⟩)
    (b := ⟨b, by rw [List.length_map]; exact hb⟩) (Fin.mk_le_mk.mpr hab)
  simpa using h

theorem kthSmallest_eq_sortedPairs {α : Type} [LinearOrder α] (l : List α) (k : ℕ) (d : α)
    (hk1 : 1 ≤ k) (hkN : k ≤ l.length) :
    ∃ h : k - 1 < (sortedPairs l).length,
      kthSmallest l k d = ((sortedPairs l)[k - 1]).2 := by
  have hlen : (sortedPairs l).length = l.length := sortedPairs_length l
  refine ⟨by omega, ?_⟩
  unfold kthSmallest
  rw [← sortedPairs_snd_eq l, List.getD_eq_getElem _ _ (by rw [List.length_map]; omega),
    List.getElem_map]

/-- **C3 (amended).** With `k = ⌊t·N⌋ ≥ 1`: every prior example whose distance
is strictly below the `k`-th smallest distance is selected, and none whose
distance is strictly above it is selected.  (The original "less than or equal"
form fails under ties at the boundary, see the counterexample.) -/
theorem claim3_boundary_amended {α : Type} [LinearOrderedAddCommGroup α] (scores : List α)
    (t : ℚ) (h0 : 0 < t) (h1 : t ≤ 1) (k : ℕ)
    (hkdef : k = (⌊t * (scores.length : ℚ)⌋).toNat) (hk1 : 1 ≤ k)
    (i : ℕ) (hi : i < scores.length) :
    ((scores.map (fun s => -s)).getD i 0 < kthSmallest (scores.map (fun s => -s)) k 0 →
        (selectMask scores t).getD i false = true) ∧
    (kthSmallest (scores.map (fun s => -s)) k 0 < (scores.map (fun s => -s)).getD i 0 →
        (selectMask scores t).getD i false = false) := by
  set D := scores.map (fun s => -s) with hD
  have hDlen : D.length = scores.length := List.length_map _ _
  have hkN : k ≤ scores.length := hkdef ▸ floor_frac_le t scores.length h1
  obtain ⟨hk1', hkth⟩ := kthSmallest_eq_sortedPairs D k 0 hk1 (by omega)
  have hSlen : (sortedPairs D).length = scores.length := by
    rw [sortedPairs_length, hDlen]
  have hmask : (selectMask scores t).getD i false = decide (i ∈ (argsort D).take k) := by
    rw [selectMask_eq_take scores t (le_of_lt h0),
      List.getD_eq_getElem _ _ (by simpa using hi), List.getElem_map, List.getElem_range,
      ← hkdef]
  have hargs : argsort D = (sortedPairs D).map Prod.fst := rfl
  constructor
  · intro hlt
    rw [hmask, decide_eq_true_iff]
    have hiA : i ∈ argsort D := (mem_argsort D).mpr (by omega)
    obtain ⟨p, hpS, hpfst⟩ := List.mem_map.mp (hargs ▸ hiA)
    obtain ⟨pos, hposlt, hpos⟩ := List.mem_iff_getElem.mp hpS
    obtain ⟨hfstlt, hval⟩ := sortedPairs_getD_val D 0 pos hposlt
    have hfst : (sortedPairs D)[pos].1 = i := by rw [hpos, hpfst]
    rw [hfst] at hval
    have hposk : pos < k := by
      by_contra hge
      push_neg at hge
      have hle := sortedPairs_val_le D (k - 1) pos (by omega) hposlt (by omega)
      rw [← hkth, ← hval] at hle
      exact absurd (lt_of_lt_of_le hlt hle) (lt_irrefl _)
    rw [hargs, ← List.map_take]
    refine List.mem_map.mpr ⟨(sortedPairs D)[pos], ?_, hfst⟩
    have hlt2 : pos < ((sortedPairs D).take k).length := by
      rw [List.length_take]
      omega
    have htk : ((sortedPairs D).take k)[pos] = (sortedPairs D)[pos] := List.getElem_take _
    exact htk ▸ List.getElem_mem _
  · intro hgt
    rw [hmask, decide_eq_false_iff_not]
    intro hmem
    rw [hargs, ← List.map_take] at hmem
    obtain ⟨q, hqmem, hqfst⟩ := List.mem_map.mp hmem
    obtain ⟨pos, hposlt, hpos⟩ := List.mem_iff_getElem.mp hqmem
    have hposS : pos < (sortedPairs D).length := by
      rw [List.length_take] at hposlt
      omega
    have hposk : pos < k := by
      rw [List.length_take] at hposlt
      omega
    have hsp : (sortedPairs D)[pos] = q := by
      rw [← hpos]
      exact (List.getElem_take _).symm
    obtain ⟨hfstlt, hval⟩ := sortedPairs_getD_val D 0 pos hposS
    have hfst : (sortedPairs D)[pos].1 = i := by rw [hsp, hqfst]
    rw [hfst] at hval
    have hle := sortedPairs_val_le D pos (k - 1) hposS (by omega) (by omega)
    rw [← hkth, ← hval] at hle
    exact absurd (lt_of_le_of_lt hle hgt) (lt_irrefl _)

/-- Counterexample to C3 as stated: with scores `[0, 0]` and threshold `1/2`
(`k = 1`), the second example's distance equals the 1st-smallest distance
(a tie) yet it is not selected. -/
theorem claim3_counterexample :
    ¬ (∀ i, i < ([(0:ℤ), 0] : List ℤ).length →
        ((([(0:ℤ), 0] : List ℤ).map (fun s => -s)).getD i 0 ≤
            kthSmallest (([(0:ℤ), 0] : List ℤ).map (fun s => -s))
              ((⌊(1/2 : ℚ) * ((([(0:ℤ), 0] : List ℤ)).length : ℚ)⌋).toNat) 0 →
          (selectMask [(0:ℤ), 0] (1/2)).getD i false = true)) := by
  intro hclaim
  have hfl : (⌊(1/2 : ℚ) * ((([(0:ℤ), 0] : List ℤ)).length : ℚ)⌋).toNat = 1 := by
    have hc : ((([(0:ℤ), 0] : List ℤ)).length : ℚ) = 2 := by norm_num
    rw [hc, show ((1/2 : ℚ) * 2) = 1 by norm_num, Int.floor_one]
    rfl
  have hmask : selectMask [(0:ℤ), 0] (1/2) = [true, false] := by
    rw [selectMask_eq_take _ _ (by norm_num), hfl]
    decide
  have h1 := hclaim 1 (by decide)
  rw [hfl, hmask] at h1
  exact absurd (h1 (by decide)) (by decide)

/-- Witness for the amended C3 at a concrete input. -/
theorem claim3_boundary_amended_witness :
    (0 < (1/2 : ℚ)) ∧ ((1/2 : ℚ) ≤ 1) ∧
      (1 = (⌊(1/2 : ℚ) * (([(5:ℤ), -3, 2] : List ℤ).length : ℚ)⌋).toNat) ∧ (1 ≤ 1) ∧
      (1 < ([(5:ℤ), -3, 2] : List ℤ).length) ∧
      (((([(5:ℤ), -3, 2] : List ℤ).map (fun s => -s)).getD 1 0 <
            kthSmallest (([(5:ℤ), -3, 2] : List ℤ).map (fun s => -s)) 1 0 →
          (selectMask [(5:ℤ), -3, 2] (1/2)).getD 1 false = true) ∧
        (kthSmallest (([(5:ℤ), -3, 2] : List ℤ).map (fun s => -s)) 1 0 <
            (([(5:ℤ), -3, 2] : List ℤ).map (fun s => -s)).getD 1 0 →
          (selectMask [(5:ℤ), -3, 2] (1/2)).getD 1 false = false)) := by
  have hkdef : 1 = (⌊(1/2 : ℚ) * (([(5:ℤ), -3, 2] : List ℤ).length : ℚ)⌋).toNat := by
    have hc : (([(5:ℤ), -3, 2] : List ℤ).length : ℚ) = 3 := by norm_num
    rw [hc, show ((1/2 : ℚ) * 3) = 3/2 by norm_num,
      show ⌊(3/2 : ℚ)⌋ = 1 from by rw [Int.floor_eq_iff]; norm_num]
    rfl
  exact ⟨by norm_num, by norm_num, hkdef, le_rfl, by norm_num,
    claim3_boundary_amended [(5:ℤ), -3, 2] (1/2) (by norm_num) (by norm_num) 1 hkdef le_rfl
      1 (by norm_num)⟩

/-- Witness for C10 at a concrete input. -/
theorem claim10_large_threshold_witness :
    (1 ≤ (2 : ℚ)) ∧
      ((∀ q : ℚ, (selectMask [(5:ℤ), -3] q).length = ([(5:ℤ), -3] : List ℤ).length) ∧
        selectMask [(5:ℤ), -3] (2 : ℚ) = List.replicate ([(5:ℤ), -3] : List ℤ).length true) :=
  ⟨by norm_num, claim10_large_threshold [(5:ℤ), -3] 2 (by norm_num)⟩

/-! ### Exporter lemmas -/

theorem trueIndices_cons (b : Bool) (m : List Bool) :
    trueIndices (b :: m) = (if b then [0] else []) ++ (trueIndices m).map Nat.succ := by
  unfold trueIndices
  rw [List.length_cons, List.range_succ_eq_map, List.filter_cons, List.filter_map]
  cases b
  · simp only [if_neg Bool.false_ne_true, List.nil_append]
    refine congrArg (List.map Nat.succ) (List.filter_congr ?_)
    intro i _
    simp [Function.comp, Nat.succ_eq_add_one]
  · simp only [if_pos rfl, List.singleton_append]
    refine congrArg (fun t => 0 :: t) (congrArg (List.map Nat.succ) (List.filter_congr ?_))
    intro i _
    simp [Function.comp, Nat.succ_eq_add_one]

theorem trueIndices_length (m : List Bool) : (trueIndices m).length = m.count true := by
  induction m with
  | nil => rfl
  | cons b m ih =>
    rw [trueIndices_cons, List.length_append, List.length_map, ih, List.count_cons]
    cases b
    · simp
    · simp [Nat.add_comm]

theorem writeSelected_length {π : Type} (batch : List (RecExample π)) (cnt : ℕ)
    (idxs : List ℕ) : (writeSelected batch cnt idxs).length = idxs.length := by
  induction idxs generalizing cnt with
  | nil => rfl
  | cons a rest ih => simp [writeSelected, ih]

theorem writeSelected_map_fst {π : Type} (batch : List (RecExample π)) (cnt : ℕ)
    (idxs : List ℕ) :
    (writeSelected batch cnt idxs).map Prod.fst
      = (List.range idxs.length).map (fun j => pathOf (cnt + j)) := by
  induction idxs generalizing cnt with
  | nil => rfl
  | cons a rest ih =>
    simp only [writeSelected, List.map_cons, ih, List.length_cons, List.range_succ_eq_map,
      List.map_map]
    congr 1
    apply List.map_congr_left
    intro j _
    simp only [Function.comp, Nat.succ_eq_add_one]
    congr 1
    omega

theorem writeSelected_map_snd {π : Type} (batch : List (RecExample π)) (cnt : ℕ)
    (idxs : List ℕ) :
    (writeSelected batch cnt idxs).map Prod.snd
      = idxs.map (fun idx =>
          hconcat (exampleAt batch idx).obsImage (exampleAt batch idx).nextObsImage) := by
  induction idxs generalizing cnt with
  | nil => rfl
  | cons a rest ih => simp [writeSelected, ih]

theorem exportWs_if {π : Type} (cm : List Bool) (batch : List (RecExample π)) (cnt : ℕ) :
    (if cm.count true = 0 then [] else writeSelected batch cnt (trueIndices cm))
      = writeSelected batch cnt (trueIndices cm) := by
  split
  · next h =>
    have hlen : (trueIndices cm).length = 0 := by rw [trueIndices_length, h]
    rw [List.length_eq_zero] at hlen
    rw [hlen]
    rfl
  · rfl

theorem exportLoop_cons {π : Type} (mask : List Bool) (cnt currentIdx : ℕ)
    (batch : List (RecExample π)) (rest : List (List (RecExample π))) :
    exportLoop mask cnt currentIdx (batch :: rest) =
      (writeSelected batch cnt (trueIndices ((mask.drop currentIdx).take batch.length)) ++
          (exportLoop mask
            (cnt + (writeSelected batch cnt
              (trueIndices ((mask.drop currentIdx).take batch.length))).length)
            (currentIdx + batch.length) rest).1,
        (exportLoop mask
          (cnt + (writeSelected batch cnt
            (trueIndices ((mask.drop currentIdx).take batch.length))).length)
          (currentIdx + batch.length) rest).2) := by
  simp only [exportLoop, exportWs_if]

theorem exportLoop_drop {π : Type} (batches : List (List (RecExample π))) (mask : List Bool)
    (cnt currentIdx : ℕ) :
    exportLoop mask cnt currentIdx batches = exportLoop (mask.drop currentIdx) cnt 0 batches := by
  induction batches generalizing mask cnt currentIdx with
  | nil => rfl
  | cons batch rest ih =>
    rw [exportLoop_cons, exportLoop_cons, List.drop_zero, ih, ih (mask.drop currentIdx),
      List.drop_drop, Nat.zero_add]

theorem exportLoop_paths {π : Type} (batches : List (List (RecExample π))) (mask : List Bool)
    (cnt currentIdx : ℕ) :
    (exportLoop mask cnt currentIdx batches).1.map Prod.fst
        = (List.range (exportLoop mask cnt currentIdx batches).1.length).map
            (fun j => pathOf (cnt + j)) ∧
      (exportLoop mask cnt currentIdx batches).2
        = cnt + (exportLoop mask cnt currentIdx batches).1.length := by
  induction batches generalizing cnt currentIdx with
  | nil => simp [exportLoop]
  | cons batch rest ih =>
    rw [exportLoop_cons]
    obtain ⟨ih1, ih2⟩ := ih (cnt + (writeSelected batch cnt
      (trueIndices ((mask.drop currentIdx).take batch.length))).length)
      (currentIdx + batch.length)
    constructor
    · rw [List.map_append, writeSelected_map_fst, ih1, List.length_append, List.range_add,
        List.map_append, List.map_map]
      simp only [writeSelected_length]
      congr 1
      apply List.map_congr_left
      intro j _
      simp only [Function.comp]
      congr 1
      omega
    · rw [ih2, List.length_append]
      omega

theorem exportLoop_all_false {π : Type} (batches : List (List (RecExample π)))
    (mask : List Bool) (h : ∀ b ∈ mask, b = false) (cnt currentIdx : ℕ) :
    exportLoop mask cnt currentIdx batches = ([], cnt) := by
  induction batches generalizing cnt currentIdx with
  | nil => rfl
  | cons batch rest ih =>
    have hcm : ((mask.drop currentIdx).take batch.length).count true = 0 := by
      rw [List.count_eq_zero]
      intro hmem
      exact Bool.noConfusion (h true (List.drop_subset _ _ (List.take_subset _ _ hmem)))
    have hti : trueIndices ((mask.drop currentIdx).take batch.length) = [] := by
      have hlen : (trueIndices ((mask.drop currentIdx).take batch.length)).length = 0 := by
        rw [trueIndices_length, hcm]
      rwa [List.length_eq_zero] at hlen
    rw [exportLoop_cons, hti]
    simp only [writeSelected, List.length_nil, Nat.add_zero]
    rw [ih cnt (currentIdx + batch.length)]
    rfl

theorem trueIndices_zip_filter {π : Type} {β : Type} (g : RecExample π → β)
    (m : List Bool) (batch : List (RecExample π)) (h : m.length ≤ batch.length) :
    (trueIndices m).map (fun idx => g (exampleAt batch idx))
      = ((m.zip batch).filter (fun q => q.1)).map (fun q => g q.2) := by
  induction m generalizing batch with
  | nil => rfl
  | cons b m ih =>
    cases batch with
    | nil => simp at h
    | cons e batch₂ =>
      rw [trueIndices_cons, List.map_append, List.map_map]
      have hcomp : ((fun idx => g (exampleAt (e :: batch₂) idx)) ∘ Nat.succ)
          = fun idx => g (exampleAt batch₂ idx) := by
        funext idx
        simp [Function.comp, exampleAt]
      rw [hcomp, ih batch₂ (by simpa using h), List.zip_cons_cons, List.filter_cons]
      cases b
      · simp
      · simp [exampleAt]

theorem exportLoop_spec {π : Type} (batches : List (List (RecExample π))) (mask : List Bool)
    (cnt : ℕ) (h : mask.length = (batches.map List.length).sum) :
    (exportLoop mask cnt 0 batches).1.map Prod.snd
        = ((mask.zip batches.flatten).filter (fun q => q.1)).map
            (fun q => hconcat q.2.obsImage q.2.nextObsImage) ∧
      (exportLoop mask cnt 0 batches).1.length = mask.count true := by
  induction batches generalizing mask cnt with
  | nil =>
    have hm : mask = [] := List.eq_nil_of_length_eq_zero (by simpa using h)
    subst hm
    simp [exportLoop]
  | cons batch rest ih =>
    have hsum : mask.length = batch.length + (rest.map List.length).sum := by
      simpa using h
    have hlen : batch.length ≤ mask.length := by omega
    have htake : (mask.take batch.length).length = batch.length := by
      rw [List.length_take]
      omega
    rw [exportLoop_cons]
    simp only [List.drop_zero, Nat.zero_add]
    set ws := writeSelected batch cnt (trueIndices (mask.take batch.length)) with hws
    rw [exportLoop_drop rest mask _ batch.length]
    set res := exportLoop (mask.drop batch.length) (cnt + ws.length) 0 rest with hres
    obtain ⟨ih1, ih2⟩ := ih (mask.drop batch.length) (cnt + ws.length)
      (by rw [List.length_drop]; omega)
    rw [← hres] at ih1 ih2
    have hwslen : ws.length = (mask.take batch.length).count true := by
      rw [hws, writeSelected_length, trueIndices_length]
    constructor
    · have hzf := trueIndices_zip_filter
        (fun e : RecExample π => hconcat e.obsImage e.nextObsImage)
        (mask.take batch.length) batch (le_of_eq htake)
      simp only [] at hzf
      rw [List.map_append, ih1, hws, writeSelected_map_snd, hzf]
      have hsplit : mask.zip (batch :: rest).flatten
          = (mask.take batch.length).zip batch ++ (mask.drop batch.length).zip rest.flatten := by
        conv_lhs => rw [← List.take_append_drop batch.length mask]
        rw [List.flatten_cons, List.zip_append (by rw [htake])]
      rw [hsplit, List.filter_append, List.map_append]
    · rw [List.length_append, ih2, hwslen]
      conv_rhs => rw [← List.take_append_drop batch.length mask]
      rw [List.count_append]

/-- **C4.** Every output image is written to the fixed path `vis/<counter>.png`
with the counter starting at 0 and increasing by one per written image, and the
written paths do not depend on the `--output_dir` or `--prefix` flags. -/
theorem claim4_fixed_write_paths {π : Type} (o₁ f₁ o₂ f₂ : String) (mask : List Bool)
    (batches : List (List (RecExample π))) :
    exportAll o₁ f₁ mask batches = exportAll o₂ f₂ mask batches ∧
    (exportAll o₁ f₁ mask batches).1.map Prod.fst
        = (List.range (exportAll o₁ f₁ mask batches).1.length).map (fun j => pathOf j) ∧
    (exportAll o₁ f₁ mask batches).2 = (exportAll o₁ f₁ mask batches).1.length ∧
    (∀ c, pathOf c = "vis/" ++ toString c ++ ".png") := by
  obtain ⟨hp, hc⟩ := exportLoop_paths batches mask 0 0
  refine ⟨rfl, ?_, ?_, fun c => rfl⟩
  · refine hp.trans (List.map_congr_left fun j _ => by rw [Nat.zero_add])
  · simpa using hc

/-- **C8.** If the selection mask is all-false, the export pass writes nothing
and the filename counter stays at 0. -/
theorem claim8_all_false_no_writes {π : Type} (oDir fPre : String) (mask : List Bool)
    (batches : List (List (RecExample π))) (h : ∀ b ∈ mask, b = false) :
    exportAll oDir fPre mask batches = ([], 0) :=
  exportLoop_all_false batches mask h 0 0

/-- Witness for C8 at a concrete input. -/
theorem claim8_all_false_no_writes_witness :
    (∀ b ∈ [false, false], b = false) ∧
      exportAll "out" "pre" [false, false]
        [[({ obsImage := [[1]], nextObsImage := [[2]] } : RecExample ℕ)]] = ([], 0) :=
  ⟨by decide,
    claim8_all_false_no_writes "out" "pre" [false, false]
      [[({ obsImage := [[1]], nextObsImage := [[2]] } : RecExample ℕ)]] (by decide)⟩

/-- **C9.** When the second pass yields batches covering exactly the masked
sequence (mask length equals the total example count), exactly
`mask.count true` images are written, the written files are
`vis/0.png … vis/(k-1).png`, and the written images are exactly the selected
examples' concatenated image pairs, in order. -/
theorem claim9_export_exact_writes {π : Type} (oDir fPre : String) (mask : List Bool)
    (batches : List (List (RecExample π)))
    (h : mask.length = (batches.map List.length).sum) :
    (exportAll oDir fPre mask batches).1.length = mask.count true ∧
    (exportAll oDir fPre mask batches).1.map Prod.fst
        = (List.range (mask.count true)).map (fun j => pathOf j) ∧
    (exportAll oDir fPre mask batches).1.map Prod.snd
        = ((mask.zip batches.flatten).filter (fun q => q.1)).map
            (fun q => hconcat q.2.obsImage q.2.nextObsImage) := by
  obtain ⟨hsnd, hlen⟩ := exportLoop_spec batches mask 0 h
  obtain ⟨hp, _⟩ := exportLoop_paths batches mask 0 0
  refine ⟨hlen, ?_, hsnd⟩
  have hp' := hp.trans (List.map_congr_left fun j _ => by rw [Nat.zero_add])
  rw [show (exportAll oDir fPre mask batches).1 = (exportLoop mask 0 0 batches).1 from rfl,
    hp', hlen]

/-- Witness for C9 at a concrete input. -/
theorem claim9_export_exact_writes_witness :
    (([true, false] : List Bool).length
        = ([[({ obsImage := [[1]], nextObsImage := [[2]] } : RecExample ℕ),
             { obsImage := [[3]], nextObsImage := [[4]] }]].map List.length).sum) ∧
      ((exportAll "out" "pre" [true, false]
          [[({ obsImage := [[1]], nextObsImage := [[2]] } : RecExample ℕ),
            { obsImage := [[3]], nextObsImage := [[4]] }]]).1.length
          = ([true, false] : List Bool).count true ∧
        (exportAll "out" "pre" [true, false]
            [[({ obsImage := [[1]], nextObsImage := [[2]] } : RecExample ℕ),
              { obsImage := [[3]], nextObsImage := [[4]] }]]).1.map Prod.fst
          = (List.range (([true, false] : List Bool).count true)).map (fun j => pathOf j) ∧
        (exportAll "out" "pre" [true, false]
            [[({ obsImage := [[1]], nextObsImage := [[2]] } : RecExample ℕ),
              { obsImage := [[3]], nextObsImage := [[4]] }]]).1.map Prod.snd
          = ((([true, false] : List Bool).zip
                ([[({ obsImage := [[1]], nextObsImage := [[2]] } : RecExample ℕ),
                   { obsImage := [[3]], nextObsImage := [[4]] }]].flatten)).filter
                (fun q => q.1)).map
              (fun q => hconcat q.2.obsImage q.2.nextObsImage)) :=
  ⟨rfl,
    claim9_export_exact_writes "out" "pre" [true, false]
      [[({ obsImage := [[1]], nextObsImage := [[2]] } : RecExample ℕ),
        { obsImage := [[3]], nextObsImage := [[4]] }]] rfl⟩

/-- **C6.** Horizontal concatenation of two images of equal height yields an
image of the same height whose rows have width `W1 + W2`. -/
theorem claim6_hconcat_dims {π : Type} (a b : List (List π)) (W1 W2 : ℕ)
    (hh : a.length = b.length) (ha : ∀ r ∈ a, r.length = W1) (hb : ∀ r ∈ b, r.length = W2) :
    (hconcat a b).length = a.length ∧ ∀ r ∈ hconcat a b, r.length = W1 + W2 := by
  induction a generalizing b with
  | nil =>
    constructor
    · simp [hconcat]
    · intro r hr
      simp [hconcat] at hr
  | cons row a₂ ih =>
    cases b with
    | nil => exact absurd hh (by simp)
    | cons srow b₂ =>
      have hh₂ : a₂.length = b₂.length := by simpa using hh
      have ha₂ : ∀ r ∈ a₂, r.length = W1 := fun r hr => ha r (List.mem_cons_of_mem _ hr)
      have hb₂ : ∀ r ∈ b₂, r.length = W2 := fun r hr => hb r (List.mem_cons_of_mem _ hr)
      obtain ⟨ih1, ih2⟩ := ih b₂ hh₂ ha₂ hb₂
      constructor
      · simp only [hconcat, List.zipWith_cons_cons, List.length_cons] at ih1 ⊢
        omega
      · intro r hr
        simp only [hconcat, List.zipWith_cons_cons] at hr
        rcases List.mem_cons.mp hr with hcase | hcase
        · subst hcase
          rw [List.length_append, ha _ (List.mem_cons_self _ _),
            hb _ (List.mem_cons_self _ _)]
        · exact ih2 r hcase

/-- Witness for C6 at a concrete input. -/
theorem claim6_hconcat_dims_witness :
    (([[1], [2]] : List (List ℕ)).length = ([[3], [4]] : List (List ℕ)).length) ∧
      (∀ r ∈ ([[1], [2]] : List (List ℕ)), r.length = 1) ∧
      (∀ r ∈ ([[3], [4]] : List (List ℕ)), r.length = 1) ∧
      ((hconcat [[1], [2]] [[3], [4]]).length = ([[1], [2]] : List (List ℕ)).length ∧
        ∀ r ∈ hconcat [[1], [2]] [[3], [4]], r.length = 1 + 1) :=
  ⟨rfl, by decide, by decide,
    claim6_hconcat_dims [[1], [2]] [[3], [4]] 1 1 rfl (by decide) (by decide)⟩

/-! ### Scorer lemmas -/

theorem colMin_cdist (T : List (List ℝ)) (hT : T ≠ []) (P : List (List ℝ)) :
    colMin (cdist T P) = P.map (fun p => minList (T.map (fun t => euclid t p))) := by
  obtain ⟨t0, ts, rfl⟩ := List.exists_cons_of_ne_nil hT
  unfold cdist
  rw [List.map_cons]
  unfold colMin
  apply List.ext_getElem
  · simp
  · intro j hj1 hj2
    have hjP : j < P.length := by simpa using hj2
    simp only [List.getElem_map, List.getElem_range]
    congr 1
    rw [List.map_cons, List.map_cons, List.map_map]
    congr 1
    · rw [List.getD_eq_getElem _ _ (by simpa using hjP), List.getElem_map]
    · apply List.map_congr_left
      intro t _
      simp only [Function.comp]
      rw [List.getD_eq_getElem _ _ (by simpa using hjP), List.getElem_map]

theorem batchSimScores_eq (T : List (List ℝ)) (hT : T ≠ []) (P : List (List ℝ)) :
    batchSimScores T P = P.map (fun p => -(minList (T.map (fun t => euclid t p)))) := by
  unfold batchSimScores
  rw [colMin_cdist T hT P, List.map_map]
  rfl

theorem batchSimScores_length (T : List (List ℝ)) (hT : T ≠ []) (P : List (List ℝ)) :
    (batchSimScores T P).length = P.length := by
  rw [batchSimScores_eq T hT P, List.length_map]

/-- **C1.** For a nonempty target set, the score sequence produced by the
batched scoring pass equals, example by example over the flattened batches,
the negated minimum Euclidean distance to any target embedding. -/
theorem claim1_negated_min_distance (T : List (List ℝ)) (hT : T ≠ [])
    (Bs : List (List (List ℝ))) :
    simScores T Bs = Bs.flatten.map (fun p => -(minList (T.map (fun t => euclid t p)))) := by
  unfold simScores
  rw [List.map_flatten]
  congr 1
  apply List.map_congr_left
  intro P _
  exact batchSimScores_eq T hT P

/-- Witness for C1 at a concrete input. -/
theorem claim1_negated_min_distance_witness :
    (([[(0:ℝ)]] : List (List ℝ)) ≠ []) ∧
      simScores [[(0:ℝ)]] [[[(1:ℝ)]]] =
        ([[[(1:ℝ)]]] : List (List (List ℝ))).flatten.map
          (fun p => -(minList (([[(0:ℝ)]] : List (List ℝ)).map (fun t => euclid t p)))) :=
  ⟨List.cons_ne_nil _ _,
    claim1_negated_min_distance [[(0:ℝ)]] (List.cons_ne_nil _ _) [[[(1:ℝ)]]]⟩

/-- **C7.** For a nonempty target set, the score sequence has exactly one
entry per prior example: its length is the sum of the batch sizes. -/
theorem claim7_one_score_per_example (T : List (List ℝ)) (hT : T ≠ [])
    (Bs : List (List (List ℝ))) :
    (simScores T Bs).length = (Bs.map List.length).sum := by
  unfold simScores
  rw [List.length_flatten, List.map_map]
  congr 1
  apply List.map_congr_left
  intro P _
  simp only [Function.comp]
  exact batchSimScores_length T hT P

/-- Witness for C7 at a concrete input. -/
theorem claim7_one_score_per_example_witness :
    (([[(0:ℝ)]] : List (List ℝ)) ≠ []) ∧
      (simScores [[(0:ℝ)]] [[[(1:ℝ)]], [[(2:ℝ)], [(3:ℝ)]]]).length
        = (([[[(1:ℝ)]], [[(2:ℝ)], [(3:ℝ)]]] : List (List (List ℝ))).map List.length).sum :=
  ⟨List.cons_ne_nil _ _,
    claim7_one_score_per_example [[(0:ℝ)]] (List.cons_ne_nil _ _)
      [[[(1:ℝ)]], [[(2:ℝ)], [(3:ℝ)]]]⟩

theorem colMin_singleton (r : List ℝ) : colMin [r] = r := by
  unfold colMin
  apply List.ext_getElem
  · simp
  · intro j hj1 hj2
    simp only [List.getElem_map, List.getElem_range, List.map_cons, List.map_nil]
    show minList [r.getD j 0] = r[j]
    show r.getD j 0 = r[j]
    rw [List.getD_eq_getElem _ _ hj2]

/-! ### The concrete example scenario -/

theorem euclid_ex_00 : euclid [(0:ℝ), 0] [(0:ℝ), 0] = 0 := by
  unfold euclid
  simp [List.zip_cons_cons, List.map_cons, List.sum_cons]

theorem euclid_ex_10 : euclid [(0:ℝ), 0] [(1:ℝ), 0] = 1 := by
  unfold euclid
  simp [List.zip_cons_cons, List.map_cons, List.sum_cons]

theorem euclid_ex_55 : euclid [(0:ℝ), 0] [(5:ℝ), 5] = Real.sqrt 50 := by
  unfold euclid
  simp [List.zip_cons_cons, List.map_cons, List.sum_cons]
  norm_num

theorem cdist_example :
    cdist [[(0:ℝ), 0]] [[(0:ℝ), 0], [1, 0], [5, 5]] = [[0, 1, Real.sqrt 50]] := by
  unfold cdist
  simp only [List.map_cons, List.map_nil]
  rw [euclid_ex_00, euclid_ex_10, euclid_ex_55]

theorem simScores_example : simScores [[(0:ℝ), 0]] [[[(0:ℝ), 0], [1, 0], [5, 5]]]
    = [(0:ℝ), 1, Real.sqrt 50].map (fun d => -d) := by
  unfold simScores batchSimScores
  simp only [List.map_cons, List.map_nil, List.flatten_cons, List.flatten_nil, List.append_nil]
  rw [cdist_example, colMin_singleton]
  simp only [List.map_cons, List.map_nil]

theorem argsort_example : argsort [(0:ℝ), 1, Real.sqrt 50] = [0, 1, 2] := by
  have h1 : (1:ℝ) ≤ Real.sqrt 50 := by
    rw [show (1:ℝ) = Real.sqrt 1 from (Real.sqrt_one).symm]
    exact Real.sqrt_le_sqrt (by norm_num)
  unfold argsort sortedPairs
  rw [show List.range ([(0:ℝ), 1, Real.sqrt 50].length) = [0, 1, 2] from rfl]
  rw [show ([0, 1, 2].zip [(0:ℝ), 1, Real.sqrt 50])
      = [(0, (0:ℝ)), (1, (1:ℝ)), (2, Real.sqrt 50)] from rfl]
  simp only [List.insertionSort, List.orderedInsert]
  rw [if_pos (show sndLE (1, (1:ℝ)) (2, Real.sqrt 50) from h1)]
  simp only [List.orderedInsert]
  rw [if_pos (show sndLE (0, (0:ℝ)) (1, (1:ℝ)) from zero_le_one)]
  simp

/-- **C5.** The example scenario: target `{[0,0]}`, priors
`{[0,0], [1,0], [5,5]}`, threshold `0.34`: the distances are
`[0, 1, √50]`, `int(0.34·3) = 1` example is retained, and the mask selects
only the first prior example. -/
theorem claim5_example_scenario :
    cdist [[(0:ℝ), 0]] [[(0:ℝ), 0], [1, 0], [5, 5]] = [[0, 1, Real.sqrt 50]] ∧
    pyInt ((34/100 : ℚ) * 3) = 1 ∧
    selectMask (simScores [[(0:ℝ), 0]] [[[(0:ℝ), 0], [1, 0], [5, 5]]]) (34/100)
      = [true, false, false] := by
  refine ⟨cdist_example, ?_, ?_⟩
  · rw [pyInt_eq_floor _ (by norm_num), show ((34/100 : ℚ) * 3) = 51/50 by norm_num,
      show ⌊(51/50 : ℚ)⌋ = 1 from by rw [Int.floor_eq_iff]; norm_num]
  · rw [simScores_example, selectMask_eq_take _ _ (by norm_num)]
    have hs2 : ([(0:ℝ), 1, Real.sqrt 50].map (fun d => -d)).map (fun s => -s)
        = [(0:ℝ), 1, Real.sqrt 50] := by
      simp
    rw [hs2, argsort_example]
    have hlen3 : ((([(0:ℝ), 1, Real.sqrt 50].map (fun d => -d)).length : ℕ) : ℚ) = 3 := by
      simp
    rw [hlen3, show ((34/100 : ℚ) * 3) = 51/50 by norm_num,
      show ⌊(51/50 : ℚ)⌋ = 1 from by rw [Int.floor_eq_iff]; norm_num]
    simp only [List.length_map]
    decide

end Retrieve
